import Mathlib

/-!
Verification of the filebrowser path-confinement engine and filesystem
operation layer (`src/filebrowser/services/filesystem.py`,
`src/filebrowser/routes/files.py`, `src/filebrowser/main.py`).

Paths are modelled as lists of components (the parts of a POSIX absolute
path).  The filesystem is a finite association list from absolute paths to
nodes (directory, regular file, or symbolic link).  `resolveComps` models
`os.path.realpath` as used by Python's `Path.resolve()`: components are
processed left to right, `..` pops the already-resolved prefix, and symbolic
links are expanded at every component; a fuel counter models realpath's
symlink-loop guard (when it runs out, remaining components are folded in
lexically without further link expansion, as realpath does for a looping
link).
-/

namespace Filebrowser

/-- Split a character list on '/'.  Models Python `str.split('/')`:
consecutive separators yield empty pieces, and the empty string yields a
single empty piece. -/
def splitSlash : List Char → List (List Char)
  | [] => [[]]
  | c :: cs =>
    if c = '/' then [] :: splitSlash cs
    else
      match splitSlash cs with
      | [] => [[c]]
      | h :: t => (c :: h) :: t

/-- Models `path.lstrip("/")`: remove every leading '/' character. -/
def lstripSlash (s : String) : String := ⟨s.data.dropWhile (fun c => c = '/')⟩

/-- The parts of a relative path string as `pathlib.PurePosixPath` parses
them: split on '/', drop empty pieces and the '.' component; '..' is kept. -/
def pyParts (s : String) : List String :=
  ((splitSlash s.data).map (fun l => String.mk l)).filter
    (fun c => !(c = "" || c = "."))

/-- A node of the modelled filesystem. -/
inductive Node
  | file (content : List Nat)
  | dir
  | symlink (absolute : Bool) (target : List String)
  deriving DecidableEq

/-- A finite filesystem: an association list from absolute paths (component
lists) to nodes. -/
structure Fs where
  entries : List (List String × Node)
  deriving DecidableEq

/-- The node stored at a path, if any. -/
def Fs.find (fs : Fs) (p : List String) : Option Node :=
  (fs.entries.find? (fun e => e.1 == p)).map (fun e => e.2)

/-- The symlink target stored at a path, if the path is a symlink. -/
def Fs.lookupLink (fs : Fs) (p : List String) : Option (Bool × List String) :=
  match fs.find p with
  | some (Node.symlink ab t) => some (ab, t)
  | _ => none

/-- Lexical resolution of the remaining components: `..` pops the resolved
prefix (staying at the root), anything else is appended.  This is what
realpath falls back to for components it will not expand further. -/
def lexResolve : List String → List String → List String
  | cur, [] => cur
  | cur, c :: rs =>
    if c = ".." then lexResolve cur.dropLast rs else lexResolve (cur ++ [c]) rs

/-- Models `os.path.realpath` (hence `Path.resolve()`): process components
left to right from the root; `..` pops the resolved prefix; a component that
names a symbolic link is replaced by its target (restarting from the root
for an absolute target) before processing continues.  `fuel` bounds the
total number of steps, modelling realpath's symlink-loop guard. -/
def resolveComps (fs : Fs) : Nat → List String → List String → List String
  | 0, cur, rest => lexResolve cur rest
  | _ + 1, cur, [] => cur
  | fuel + 1, cur, c :: rs =>
    if c = ".." then resolveComps fs fuel cur.dropLast rs
    else
      match fs.lookupLink (cur ++ [c]) with
      | some (true, t) => resolveComps fs fuel [] (t ++ rs)
      | some (false, t) => resolveComps fs fuel cur (t ++ rs)
      | none => resolveComps fs fuel (cur ++ [c]) rs

/-- `FilesystemService.validate_path`: strip leading slashes from the
candidate, join it onto the home directory, fully resolve the result, and
accept it only when the home directory's components are a prefix of the
resolved components (Python's `resolved.relative_to(self.home_dir)`, which
compares whole components, raising `PermissionError` otherwise). -/
def validate_path (fs : Fs) (fuel : Nat) (home : List String) (path : String) :
    Option (List String) :=
  let cleaned := lstripSlash path
  let resolved := resolveComps fs fuel [] (home ++ pyParts cleaned)
  if home.isPrefixOf resolved then some resolved else none

/-- A demonstration filesystem: a home directory `/home/user` containing a
symbolic link `link` whose real target `/etc` lies outside the home
directory. -/
def demoFs : Fs :=
  ⟨[(["home"], Node.dir), (["home", "user"], Node.dir),
    (["home", "user", "link"], Node.symlink true ["etc"]),
    (["etc"], Node.dir), (["etc", "passwd"], Node.file [])]⟩

/-- Characterization of acceptance: `validate_path` returns `some p` exactly
when `p` is the fully resolved join of home and candidate and the home
components are a componentwise prefix of `p`. -/
theorem validate_path_eq_some (fs : Fs) (fuel : Nat) (home : List String)
    (cand : String) (p : List String) :
    validate_path fs fuel home cand = some p ↔
      p = resolveComps fs fuel [] (home ++ pyParts (lstripSlash cand)) ∧
        home.isPrefixOf p = true := by
  unfold validate_path
  by_cases hp :
      home.isPrefixOf (resolveComps fs fuel [] (home ++ pyParts (lstripSlash cand))) = true
  · simp only [hp, if_true, Option.some.injEq]
    constructor
    · intro h
      exact ⟨h.symm, h ▸ hp⟩
    · intro h
      exact h.1.symm
  · simp only [Bool.not_eq_true] at hp
    simp only [hp, Bool.false_eq_true, if_false]
    constructor
    · intro h
      exact absurd h (by simp)
    · intro h
      rw [h.1] at h
      exact absurd h.2 (by simp [hp])

/-- Lexical resolution appends components verbatim when none of them is
`..`. -/
theorem lexResolve_plain :
    ∀ (rest cur : List String), (∀ c ∈ rest, c ≠ "..") →
      lexResolve cur rest = cur ++ rest := by
  intro rest
  induction rest with
  | nil => intro cur _; simp [lexResolve]
  | cons c rs ih =>
    intro cur h
    have hc : c ≠ ".." := h c (by simp)
    simp only [lexResolve, hc, if_false]
    rw [ih (cur ++ [c]) (fun d hd => h d (by simp [hd]))]
    simp

/-- Full resolution is the identity on a path each of whose components is
plain (not `..`) and none of whose prefixes is a symbolic link. -/
theorem resolveComps_plain (fs : Fs) :
    ∀ (fuel : Nat) (rest cur : List String),
      (∀ c ∈ rest, c ≠ "..") →
      (∀ n, n < rest.length → fs.lookupLink (cur ++ rest.take (n + 1)) = none) →
      resolveComps fs fuel cur rest = cur ++ rest := by
  intro fuel
  induction fuel with
  | zero =>
    intro rest cur h _
    exact lexResolve_plain rest cur h
  | succ fuel ih =>
    intro rest cur h hl
    match rest with
    | [] => simp [resolveComps]
    | c :: rs =>
      have hc : c ≠ ".." := h c (by simp)
      have hl0 : fs.lookupLink (cur ++ [c]) = none := by
        have := hl 0 (by simp)
        simpa using this
      simp only [resolveComps, hc, if_false, hl0]
      rw [ih rs (cur ++ [c]) (fun d hd => h d (by simp [hd]))]
      · simp
      · intro n hn
        have := hl (n + 1) (by simpa using Nat.succ_lt_succ hn)
        simpa [List.append_assoc] using this

/-- C1: confinement soundness of `validate_path`.  Whenever resolution
accepts a candidate, the fully symlink-resolved canonical result is the home
root or one of its strict descendants under the componentwise prefix test;
whenever the fully resolved join of home and candidate is not under the home
root — in particular when `..` segments walk the resolution above it, or a
symbolic link's real target lies outside it — the candidate is rejected; and
a sibling such as `/home/userX` is never accepted when the home root is
`/home/user`, since the componentwise test does not match it. -/
theorem validate_path_confinement :
    (∀ (fs : Fs) (fuel : Nat) (home : List String) (cand : String) (p : List String),
        validate_path fs fuel home cand = some p →
          p = resolveComps fs fuel [] (home ++ pyParts (lstripSlash cand)) ∧
            (p = home ∨ (home <+: p ∧ p ≠ home))) ∧
    (∀ (fs : Fs) (fuel : Nat) (home : List String) (cand : String),
        home.isPrefixOf (resolveComps fs fuel [] (home ++ pyParts (lstripSlash cand)))
            = false →
          validate_path fs fuel home cand = none) ∧
    (∀ (fs : Fs) (fuel : Nat) (cand : String) (rest : List String),
        validate_path fs fuel ["home", "user"] cand ≠ some ("home" :: "userX" :: rest)) := by
  refine ⟨?_, ?_, ?_⟩
  · intro fs fuel home cand p h
    obtain ⟨hres, hpre⟩ := (validate_path_eq_some fs fuel home cand p).mp h
    refine ⟨hres, ?_⟩
    rcases eq_or_ne p home with he | he
    · exact Or.inl he
    · exact Or.inr ⟨List.isPrefixOf_iff_prefix.mp hpre, he⟩
  · intro fs fuel home cand h
    unfold validate_path
    simp [h]
  · intro fs fuel cand rest h
    obtain ⟨_, hpre⟩ :=
      (validate_path_eq_some fs fuel ["home", "user"] cand _).mp h
    obtain ⟨t, ht⟩ := List.isPrefixOf_iff_prefix.mp hpre
    simp at ht

/-- Concrete escape attempts against `demoFs`: a deep `..` traversal and an
access through a symlink whose real target lies outside the home root are
both rejected, while an innocent relative path is accepted. -/
theorem validate_path_escape_examples :
    validate_path demoFs 32 ["home", "user"] "a/b/c/../../../../etc/passwd" = none ∧
    validate_path demoFs 32 ["home", "user"] "link/passwd" = none ∧
    validate_path demoFs 32 ["home", "user"] "docs/a.txt"
      = some ["home", "user", "docs", "a.txt"] := by
  decide

/-- C5: leading-separator neutrality.  Resolution of `"/" ++ x` and of `x`
coincide for every candidate `x`, and — when the home root is a canonical
directory (no `..` components, no symlink among its prefixes) — the empty
candidate and the candidate `/` both resolve to the home root itself. -/
theorem validate_path_slash_neutral (fs : Fs) (fuel : Nat) (home : List String)
    (hplain : ∀ c ∈ home, c ≠ "..")
    (hlinks : ∀ n, n < home.length → fs.lookupLink (home.take (n + 1)) = none) :
    (∀ x : String, validate_path fs fuel home ("/" ++ x) = validate_path fs fuel home x) ∧
    validate_path fs fuel home "" = some home ∧
    validate_path fs fuel home "/" = some home := by
  have hstrip : ∀ x : String, lstripSlash ("/" ++ x) = lstripSlash x := by
    intro x
    show String.mk ((('/' :: x.data).dropWhile (fun c => c = '/'))) = _
    simp [lstripSlash, List.dropWhile]
  have hres : resolveComps fs fuel [] home = home := by
    have := resolveComps_plain fs fuel home [] hplain (by simpa using hlinks)
    simpa using this
  have hhome : ∀ s : String, pyParts (lstripSlash s) = [] →
      validate_path fs fuel home s = some home := by
    intro s hs
    unfold validate_path
    simp only [hs, List.append_nil, hres]
    rw [List.isPrefixOf_iff_prefix.mpr (List.prefix_refl home)]
    simp
  refine ⟨?_, ?_, ?_⟩
  · intro x
    unfold validate_path
    rw [hstrip x]
  · exact hhome "" (by decide)
  · exact hhome "/" (by decide)

/-- Witness for C5 at concrete inputs: with home root `/h` over the empty
filesystem, `/docs` and `docs` resolve alike and both the empty candidate
and `/` resolve to the home root. -/
theorem validate_path_slash_neutral_witness :
    validate_path (Fs.mk []) 16 ["h"] ("/" ++ "docs")
        = validate_path (Fs.mk []) 16 ["h"] "docs" ∧
    validate_path (Fs.mk []) 16 ["h"] "" = some ["h"] ∧
    validate_path (Fs.mk []) 16 ["h"] "/" = some ["h"] :=
  have h := validate_path_slash_neutral (Fs.mk []) 16 ["h"] (by decide) (by decide)
  ⟨h.1 "docs", h.2.1, h.2.2⟩

/-- The characters of path components joined with '/'.  Models how
`str(PurePosixPath(...))` renders a relative path. -/
def joinSlashChars : List String → List Char
  | [] => []
  | c :: cs =>
    match cs with
    | [] => c.data
    | _ :: _ => c.data ++ '/' :: joinSlashChars cs

/-- The string rendering of a relative path. -/
def joinSlash (l : List String) : String := ⟨joinSlashChars l⟩

/-- The string rendering of an absolute path, as `str()` of a resolved
`Path` produces it. -/
def pathAbs (p : List String) : String := ⟨'/' :: joinSlashChars p⟩

/-- The string rendering of `p` relative to `home`, as
`str(p.relative_to(home))` produces it (`"."` when they are equal). -/
def relString (home p : List String) : String :=
  match p.drop home.length with
  | [] => "."
  | l => joinSlash l

/-- A component is good when it is none of `""`, `"."`, `".."` and contains
no separator: exactly the components a resolved path is made of. -/
def goodCompB (c : String) : Bool :=
  !(c = "" || c = "." || c = "..") && !(c.data.contains '/')

/-- A path is canonical for a filesystem when all its components are good
and none of its prefixes is a symbolic link — the shape `realpath` output
has. -/
def pathCanonB (fs : Fs) (p : List String) : Bool :=
  p.all goodCompB &&
    (List.range p.length).all (fun n => (fs.lookupLink (p.take (n + 1))).isNone)

/-- Unpacking of a good component: it is none of the special components,
its characters are nonempty, and it holds no separator. -/
theorem goodCompB_spec (c : String) (h : goodCompB c = true) :
    c ≠ "" ∧ c ≠ "." ∧ c ≠ ".." ∧ c.data ≠ [] ∧ '/' ∉ c.data := by
  unfold goodCompB at h
  obtain ⟨h1, h2⟩ := (Bool.and_eq_true _ _).mp h
  simp only [Bool.not_eq_true', Bool.or_eq_false_iff, decide_eq_false_iff_not] at h1
  have hnsl : '/' ∉ c.data := by
    simp only [Bool.not_eq_true'] at h2
    simpa using h2
  refine ⟨h1.1.1, h1.1.2, h1.2, ?_, hnsl⟩
  intro hd
  exact h1.1.1 (String.ext (by rw [hd]))

/-- Splitting undoes joining: a chunk with no separator followed by a
separator comes off whole. -/
theorem splitSlash_append_slash (x rest : List Char) (hx : '/' ∉ x) :
    splitSlash (x ++ '/' :: rest) = x :: splitSlash rest := by
  induction x with
  | nil => simp [splitSlash]
  | cons c cs ih =>
    have hc : ¬c = '/' := by
      intro hcc
      exact hx (by simp [hcc])
    have ih' := ih (fun hm => hx (by simp [hm]))
    simp only [List.cons_append, splitSlash, hc, if_false]
    rw [show splitSlash (cs.append ('/' :: rest)) = cs :: splitSlash rest from ih']

/-- Splitting a separator-free chunk yields the single chunk. -/
theorem splitSlash_no_slash (x : List Char) (hx : '/' ∉ x) :
    splitSlash x = [x] := by
  induction x with
  | nil => simp [splitSlash]
  | cons c cs ih =>
    have hc : ¬c = '/' := by
      intro hcc
      exact hx (by simp [hcc])
    have ih' := ih (fun hm => hx (by simp [hm]))
    simp only [splitSlash, hc, if_false]
    rw [ih']

/-- Parsing the rendered form of a list of good components gives the list
back. -/
theorem pyParts_joinSlash (l : List String) (h : ∀ c ∈ l, goodCompB c = true) :
    pyParts (joinSlash l) = l := by
  induction l with
  | nil => decide
  | cons c cs ih =>
    obtain ⟨hne, hnd, _, _, hnsl⟩ := goodCompB_spec c (h c (by simp))
    match cs with
    | [] =>
      show pyParts ⟨c.data⟩ = [c]
      unfold pyParts
      show (((splitSlash c.data).map (fun l => String.mk l)).filter _) = [c]
      rw [splitSlash_no_slash c.data hnsl]
      simp [hne, hnd]
    | d :: ds =>
      have ih' := ih (fun e he => h e (by simp [he]))
      show pyParts ⟨c.data ++ '/' :: joinSlashChars (d :: ds)⟩ = c :: d :: ds
      unfold pyParts
      show ((((splitSlash (c.data ++ '/' :: joinSlashChars (d :: ds)))).map
        (fun l => String.mk l)).filter _) = c :: d :: ds
      rw [splitSlash_append_slash c.data _ hnsl]
      show ((String.mk c.data ::
        (splitSlash (joinSlashChars (d :: ds))).map (fun l => String.mk l)).filter _)
          = c :: d :: ds
      rw [List.filter_cons_of_pos (by simp [hne, hnd])]
      exact congrArg (fun xs => c :: xs) ih'

/-- Rendered good components carry no leading separator, so `lstrip("/")`
leaves them unchanged. -/
theorem lstripSlash_joinSlash (c : String) (cs : List String)
    (hne : c.data ≠ []) (hnsl : '/' ∉ c.data) :
    lstripSlash (joinSlash (c :: cs)) = joinSlash (c :: cs) := by
  unfold lstripSlash joinSlash
  congr 1
  match hd : c.data, hne with
  | ch :: chs, _ =>
    have hch : ¬ch = '/' := by
      intro hcc
      exact hnsl (by rw [hd, hcc]; simp)
    match cs with
    | [] =>
      show ((joinSlashChars [c]).dropWhile (fun c => c = '/')) = joinSlashChars [c]
      show ((c.data).dropWhile (fun c => c = '/')) = c.data
      rw [hd]
      simp [List.dropWhile, hch]
    | d :: ds =>
      show ((c.data ++ '/' :: joinSlashChars (d :: ds)).dropWhile (fun c => c = '/'))
          = c.data ++ '/' :: joinSlashChars (d :: ds)
      rw [hd]
      simp [List.dropWhile, hch]

/-- C4 counterexample: with home root `/h` over the empty filesystem, the
candidate `a` resolves to `/h/a`, but feeding the resolved path string
`/h/a` back into resolution succeeds with the different path `/h/h/a` —
resolution is not idempotent on resolved path strings. -/
theorem validate_path_not_idempotent :
    validate_path (Fs.mk []) 32 ["h"] "a" = some ["h", "a"] ∧
    pathAbs ["h", "a"] = "/h/a" ∧
    validate_path (Fs.mk []) 32 ["h"] (pathAbs ["h", "a"]) = some ["h", "h", "a"] ∧
    (["h", "h", "a"] : List String) ≠ ["h", "a"] := by
  decide

/-- C4 amended: resolution is idempotent on the home-relative rendering.
For every accepted candidate whose resolved path is canonical for the
filesystem, feeding the resolved path back relative to the home root (as
the service reports paths) succeeds and returns the same path. -/
theorem validate_path_idem_relative (fs : Fs) (fuel : Nat) (home : List String)
    (cand : String) (p : List String)
    (hv : validate_path fs fuel home cand = some p)
    (hcanon : pathCanonB fs p = true) :
    validate_path fs fuel home (relString home p) = some p := by
  have hpre : home.isPrefixOf p = true :=
    ((validate_path_eq_some fs fuel home cand p).mp hv).2
  obtain ⟨t, ht⟩ := List.isPrefixOf_iff_prefix.mp hpre
  have hgood : ∀ c ∈ p, goodCompB c = true := by
    have := (Bool.and_eq_true _ _).mp hcanon |>.1
    simpa [List.all_eq_true] using this
  have hlinks : ∀ n, n < p.length → fs.lookupLink (p.take (n + 1)) = none := by
    have := (Bool.and_eq_true _ _).mp hcanon |>.2
    simp only [List.all_eq_true, List.mem_range, Option.isNone_iff_eq_none] at this
    exact this
  have hdrop : p.drop home.length = t := by
    rw [← ht]
    exact List.drop_left home t
  have hparts : pyParts (lstripSlash (relString home p)) = t := by
    unfold relString
    rw [hdrop]
    match t, ht with
    | [], _ => decide
    | c :: cs, ht =>
      obtain ⟨_, _, _, hcne, hcnsl⟩ := goodCompB_spec c (hgood c (by rw [← ht]; simp))
      show pyParts (lstripSlash (joinSlash (c :: cs))) = c :: cs
      rw [lstripSlash_joinSlash c cs hcne hcnsl]
      exact pyParts_joinSlash (c :: cs) (fun e he => hgood e (by rw [← ht]; simp [he]))
  have hres : resolveComps fs fuel [] p = p := by
    have := resolveComps_plain fs fuel p []
      (fun c hc => (goodCompB_spec c (hgood c hc)).2.2.1)
      (by simpa using hlinks)
    simpa using this
  unfold validate_path
  simp only [hparts, ht, hres, hpre, if_true]

/-- Witness for the amended C4: over a filesystem holding `/h` and `/h/a`,
the accepted candidate `a` resolves to `/h/a`, and resolving its
home-relative rendering again returns the same path. -/
theorem validate_path_idem_relative_witness :
    validate_path (Fs.mk [(["h"], Node.dir), (["h", "a"], Node.dir)]) 16 ["h"]
        (relString ["h"] ["h", "a"]) = some ["h", "a"] :=
  validate_path_idem_relative (Fs.mk [(["h"], Node.dir), (["h", "a"], Node.dir)])
    16 ["h"] "a" ["h", "a"] (by decide) (by decide)

/-- The index of the last '.' in a character list, as Python's
`str.rfind('.')` reports it (`none` for -1). -/
def lastDotIdx : List Char → Option Nat
  | [] => none
  | c :: cs =>
    match lastDotIdx cs with
    | some i => some (i + 1)
    | none => if c = '.' then some 0 else none

/-- The characters strictly after the last '.' of a character list, when a
dot occurs at all. -/
def afterLastDot : List Char → Option (List Char)
  | [] => none
  | c :: cs =>
    match afterLastDot cs with
    | some t => some t
    | none => if c = '.' then some cs else none

/-- Models `PurePosixPath(s).name`: the last parsed component, or the empty
string when there is none. -/
def pyName (s : String) : String := (pyParts s).getLastD ""

/-- Models `Path(s).suffix` as CPython computes it from the name:
`i = name.rfind('.'); return name[i:] if 0 < i < len(name) - 1 else ''`. -/
def pySuffix (s : String) : String :=
  let n := pyName s
  match lastDotIdx n.data with
  | some i => if 0 < i ∧ i < n.data.length - 1 then ⟨n.data.drop i⟩ else ""
  | none => ""

/-- Models `str.lower` on the ASCII range (`Char.toLower` lowers exactly
'A'..'Z', which covers every extension in the static table). -/
def lowerStr (s : String) : String := ⟨s.data.map Char.toLower⟩

/-- The static category table `FILE_CATEGORIES`, in the source's insertion
order. -/
def FILE_CATEGORIES : List (String × List String) :=
  [("text", [".txt", ".log", ".csv", ".json", ".xml", ".yaml", ".yml", ".toml",
             ".env", ".conf"]),
   ("code", [".py", ".js", ".ts", ".go", ".rs", ".c", ".cpp", ".java", ".sh",
             ".sql", ".html", ".css"]),
   ("markdown", [".md"]),
   ("image", [".png", ".jpg", ".jpeg", ".gif", ".webp", ".svg", ".bmp"]),
   ("audio", [".mp3", ".wav", ".ogg", ".flac", ".aac", ".m4a"]),
   ("video", [".mp4", ".webm", ".mkv", ".mov", ".avi"]),
   ("pdf", [".pdf"])]

/-- The first category whose extension set holds `ext`, defaulting to
`other` — the loop body of `detect_file_type`. -/
def lookupCategory (ext : String) : String :=
  match FILE_CATEGORIES.find? (fun e => e.2.contains ext) with
  | some e => e.1
  | none => "other"

/-- `FilesystemService.detect_file_type`: lowercase `Path(filename).suffix`
and look it up in the static table. -/
def detect_file_type (filename : String) : String :=
  lookupCategory (lowerStr (pySuffix filename))

/-- The spec's reference extension: the substring after the last '.' in the
filename, the empty string when no dot occurs.  The dot itself is retained
so that the lookup against the dotted extension table is meaningful. -/
def specExtension (fn : String) : String :=
  match afterLastDot fn.data with
  | none => ""
  | some t => ⟨'.' :: t⟩

/-- The classifier as the claim's reference definition describes it:
lowercase the substring after the last dot and look it up in the static
table. -/
def specDetect (fn : String) : String := lookupCategory (lowerStr (specExtension fn))

/-- The amended reference extension: taken from the filename's final path
component, and empty when the component's last dot is its first character
(a dotfile) or its final character (a trailing dot). -/
def specExtensionAmended (fn : String) : String :=
  let n := pyName fn
  match afterLastDot n.data with
  | none => ""
  | some t =>
    if t = [] ∨ n.data.length = t.length + 1 then "" else ⟨'.' :: t⟩

/-- The classifier under the amended reference definition. -/
def specDetectAmended (fn : String) : String :=
  lookupCategory (lowerStr (specExtensionAmended fn))

/-- `lastDotIdx` and `afterLastDot` describe the same last dot: either both
report no dot, or the index and the tail fit together. -/
theorem lastDotIdx_afterLastDot (l : List Char) :
    (lastDotIdx l = none ∧ afterLastDot l = none) ∨
    (∃ i t, lastDotIdx l = some i ∧ afterLastDot l = some t ∧
      i + (t.length + 1) = l.length ∧ l.drop i = '.' :: t) := by
  induction l with
  | nil => exact Or.inl ⟨rfl, rfl⟩
  | cons c cs ih =>
    rcases ih with ⟨h1, h2⟩ | ⟨i, t, h1, h2, hlen, hdrop⟩
    · by_cases hc : c = '.'
      · refine Or.inr ⟨0, cs, ?_, ?_, by simp, by simp [hc]⟩
        · simp [lastDotIdx, h1, hc]
        · simp [afterLastDot, h2, hc]
      · exact Or.inl ⟨by simp [lastDotIdx, h1, hc], by simp [afterLastDot, h2, hc]⟩
    · refine Or.inr ⟨i + 1, t, ?_, ?_, ?_, ?_⟩
      · simp [lastDotIdx, h1]
      · simp [afterLastDot, h2]
      · simp only [List.length_cons]
        omega
      · simpa using hdrop

/-- C7 counterexample: for the dotfile `.env` the code's classifier returns
`other` (Python's `suffix` is empty when the name's only dot leads it),
while the claim's reference definition — substring after the last dot —
yields extension `.env` and category `text`. -/
theorem detect_file_type_dotfile :
    detect_file_type ".env" = "other" ∧ specDetect ".env" = "text" ∧
    detect_file_type ".env" ≠ specDetect ".env" := by
  decide

/-- C7 amended: the code's classifier agrees with the reference definition
once the extension is taken from the filename's final component and is
empty when its last dot is the component's first or last character; the
spec's three examples classify as stated. -/
theorem detect_file_type_amended :
    (∀ fn : String, detect_file_type fn = specDetectAmended fn) ∧
    detect_file_type "hello.txt" = "text" ∧
    detect_file_type "photo.JPG" = "image" ∧
    detect_file_type "archive.zip" = "other" := by
  refine ⟨?_, by decide, by decide, by decide⟩
  intro fn
  unfold detect_file_type specDetectAmended
  congr 2
  unfold pySuffix specExtensionAmended
  rcases lastDotIdx_afterLastDot (pyName fn).data with ⟨h1, h2⟩ | ⟨i, t, h1, h2, hlen, hdrop⟩
  · simp only [h1, h2]
  · simp only [h1, h2]
    by_cases ht : t = []
    · subst ht
      simp only [List.length_nil] at hlen
      have hni : ¬(0 < i ∧ i < (pyName fn).data.length - 1) := by omega
      rw [if_neg hni, if_pos (Or.inl rfl)]
    · have htl : 0 < t.length := List.length_pos.mpr ht
      by_cases hi : i = 0
      · subst hi
        have hni : ¬(0 < 0 ∧ 0 < (pyName fn).data.length - 1) := by simp
        have hc2 : (pyName fn).data.length = t.length + 1 := by omega
        rw [if_neg hni, if_pos (Or.inr hc2)]
      · have hc : 0 < i ∧ i < (pyName fn).data.length - 1 := by omega
        have hc2 : ¬(t = [] ∨ (pyName fn).data.length = t.length + 1) := by
          push_neg
          exact ⟨ht, by omega⟩
        rw [if_pos hc, if_neg hc2, hdrop]

/-- A directory entry as the listing projects it: the child's name and
whether it is a directory (the fields the sort key reads). -/
structure DirEntry where
  name : String
  isDir : Bool
  deriving DecidableEq

/-- Lexicographic comparison of character lists by code point — Python's
string `<=`. -/
def charListLe : List Char → List Char → Bool
  | [], _ => true
  | _ :: _, [] => false
  | a :: as, b :: bs =>
    if a.toNat < b.toNat then true
    else if b.toNat < a.toNat then false
    else charListLe as bs

/-- String comparison by code points, as Python compares the lowered
names. -/
def strLe (a b : String) : Bool := charListLe a.data b.data

/-- The primary sort key `not e.is_dir()`: 0 for directories, 1 for
files. -/
def dirRank (e : DirEntry) : Nat := if e.isDir then 0 else 1

/-- The sort order of `list_directory`: the tuple key
`(not e.is_dir(), e.name.lower())` compared lexicographically. -/
def entryLE (a b : DirEntry) : Prop :=
  dirRank a < dirRank b ∨
    (dirRank a = dirRank b ∧ strLe (lowerStr a.name) (lowerStr b.name) = true)

instance : DecidableRel entryLE := fun a b => by
  unfold entryLE
  infer_instance

theorem charListLe_total (a : List Char) :
    ∀ b : List Char, charListLe a b = true ∨ charListLe b a = true := by
  induction a with
  | nil => intro b; exact Or.inl rfl
  | cons x xs ih =>
    intro b
    match b with
    | [] => exact Or.inr rfl
    | y :: ys =>
      by_cases h1 : x.toNat < y.toNat
      · exact Or.inl (by simp [charListLe, h1])
      · by_cases h2 : y.toNat < x.toNat
        · exact Or.inr (by simp [charListLe, h2])
        · rcases ih ys with h | h
          · exact Or.inl (by simp [charListLe, h1, h2, h])
          · exact Or.inr (by simp [charListLe, h1, h2, h])

theorem charListLe_trans (a : List Char) :
    ∀ b c : List Char, charListLe a b = true → charListLe b c = true →
      charListLe a c = true := by
  induction a with
  | nil => intro b c _ _; rfl
  | cons x xs ih =>
    intro b c hab hbc
    match b, c with
    | [], _ => exact absurd hab (by simp [charListLe])
    | _ :: _, [] => exact absurd hbc (by simp [charListLe])
    | y :: ys, z :: zs =>
      simp only [charListLe] at hab hbc ⊢
      by_cases hxy : x.toNat < y.toNat <;> by_cases hyz : y.toNat < z.toNat
      · simp [show x.toNat < z.toNat by omega]
      · by_cases hzy : z.toNat < y.toNat
        · simp [hyz, hzy] at hbc
        · simp [show x.toNat < z.toNat by omega]
      · by_cases hyx : y.toNat < x.toNat
        · simp [hxy, hyx] at hab
        · simp [show x.toNat < z.toNat by omega]
      · by_cases hyx : y.toNat < x.toNat
        · simp [hxy, hyx] at hab
        · by_cases hzy : z.toNat < y.toNat
          · simp [hyz, hzy] at hbc
          · have hxz : ¬x.toNat < z.toNat := by omega
            have hzx : ¬z.toNat < x.toNat := by omega
            simp only [hxy, hyx, if_false] at hab
            simp only [hyz, hzy, if_false] at hbc
            simp [hxz, hzx, ih ys zs hab hbc]

instance : IsTotal DirEntry entryLE :=
  ⟨by
    intro a b
    unfold entryLE
    rcases Nat.lt_trichotomy (dirRank a) (dirRank b) with h | h | h
    · exact Or.inl (Or.inl h)
    · rcases charListLe_total (lowerStr a.name).data (lowerStr b.name).data with hc | hc
      · exact Or.inl (Or.inr ⟨h, hc⟩)
      · exact Or.inr (Or.inr ⟨h.symm, hc⟩)
    · exact Or.inr (Or.inl h)⟩

instance : IsTrans DirEntry entryLE :=
  ⟨by
    intro a b c hab hbc
    unfold entryLE at hab hbc ⊢
    rcases hab with h1 | ⟨h1, h1'⟩ <;> rcases hbc with h2 | ⟨h2, h2'⟩
    · exact Or.inl (by omega)
    · exact Or.inl (by omega)
    · exact Or.inl (by omega)
    · exact Or.inr ⟨h1.trans h2, charListLe_trans _ _ _ h1' h2'⟩⟩

/-- Whether a path is a directory after following symlinks — the semantics
of Python's `is_dir()`, which stats through links. -/
def Fs.isDirFollow (fs : Fs) (fuel : Nat) (p : List String) : Bool :=
  match fs.find (resolveComps fs fuel [] p) with
  | some Node.dir => true
  | _ => false

/-- The projection `iterdir` + `stat` applies to one filesystem entry when
listing directory `p`: children are the entries exactly one component below
`p`. -/
def childEntry (fs : Fs) (fuel : Nat) (p : List String)
    (e : List String × Node) : Option DirEntry :=
  if e.1.length = p.length + 1 ∧ p.isPrefixOf e.1 = true then
    some ⟨e.1.getLastD "", fs.isDirFollow fuel e.1⟩
  else none

/-- The children of directory `p`, in the filesystem's (OS) order. -/
def childrenOf (fs : Fs) (fuel : Nat) (p : List String) : List DirEntry :=
  fs.entries.filterMap (childEntry fs fuel p)

/-- The operation layer's error set for the read operations modelled
here. -/
inductive FsError
  | permission
  | notFound
  | notADirectory
  deriving DecidableEq

deriving instance DecidableEq for Except

/-- `FilesystemService.list_directory`: validate the path, require an
existing directory, and return the children sorted by the key
`(not e.is_dir(), e.name.lower())` — a stable sort, modelled by insertion
sort over `entryLE`. -/
def list_directory (fs : Fs) (fuel : Nat) (home : List String) (path : String) :
    Except FsError (List DirEntry) :=
  match validate_path fs fuel home path with
  | none => Except.error FsError.permission
  | some r =>
    if (fs.find r).isNone then Except.error FsError.notFound
    else if fs.isDirFollow fuel r = false then Except.error FsError.notADirectory
    else Except.ok (List.insertionSort entryLE (childrenOf fs fuel r))

/-- C6: listing order.  In every successful listing, an entry that is a
file is never followed by a directory (directories all precede files), and
entries in the same group are ordered by their lowercased names. -/
theorem list_directory_order (fs : Fs) (fuel : Nat) (home : List String)
    (path : String) (out : List DirEntry)
    (h : list_directory fs fuel home path = Except.ok out) :
    out.Pairwise (fun a b =>
      (a.isDir = false → b.isDir = false) ∧
      (a.isDir = b.isDir → strLe (lowerStr a.name) (lowerStr b.name) = true)) := by
  unfold list_directory at h
  cases hv : validate_path fs fuel home path with
  | none =>
    rw [hv] at h
    exact absurd h (by simp)
  | some r =>
    rw [hv] at h
    have h' : (if (fs.find r).isNone = true
        then (Except.error FsError.notFound : Except FsError (List DirEntry))
        else if fs.isDirFollow fuel r = false then Except.error FsError.notADirectory
        else Except.ok (List.insertionSort entryLE (childrenOf fs fuel r)))
          = Except.ok out := h
    by_cases h1 : (fs.find r).isNone
    · rw [if_pos h1] at h'
      exact absurd h' (by simp)
    · rw [if_neg h1] at h'
      by_cases h2 : fs.isDirFollow fuel r = false
      · rw [if_pos h2] at h'
        exact absurd h' (by simp)
      · rw [if_neg h2] at h'
        have hout : out = List.insertionSort entryLE (childrenOf fs fuel r) :=
          (Except.ok.inj h').symm
        subst hout
        have hs := List.sorted_insertionSort entryLE (childrenOf fs fuel r)
        refine List.Pairwise.imp ?_ hs
        intro a b hab
        rcases hab with h1 | ⟨h1, h1'⟩
        · constructor
          · intro ha
            cases hb : b.isDir
            · rfl
            · rw [dirRank, dirRank, ha, hb] at h1
              simp at h1
          · intro hEq
            rw [dirRank, dirRank, hEq] at h1
            exact absurd h1 (lt_irrefl _)
        · constructor
          · intro ha
            cases hb : b.isDir
            · rfl
            · rw [dirRank, dirRank, ha, hb] at h1
              simp at h1
          · intro _
            exact h1'

/-- Witness for C6: the spec's scenario — a home root holding `hello.txt`
and the subdirectory `docs` lists `docs` before `hello.txt`, and the
resulting order is pairwise as claimed. -/
theorem list_directory_order_witness :
    ([⟨"docs", true⟩, ⟨"hello.txt", false⟩] : List DirEntry).Pairwise (fun a b =>
      (a.isDir = false → b.isDir = false) ∧
      (a.isDir = b.isDir → strLe (lowerStr a.name) (lowerStr b.name) = true)) :=
  list_directory_order
    (Fs.mk [(["h"], Node.dir), (["h", "hello.txt"], Node.file [1, 2, 3]),
      (["h", "docs"], Node.dir)])
    32 ["h"] "" [⟨"docs", true⟩, ⟨"hello.txt", false⟩] (by decide)

/-- Remove the single entry at `p` (Python `unlink`, also with
`missing_ok=True`). -/
def Fs.removeAt (fs : Fs) (p : List String) : Fs :=
  ⟨fs.entries.filter (fun e => !(e.1 == p))⟩

/-- Remove the entry at `p` and every entry below it
(`shutil.rmtree`). -/
def Fs.removeTree (fs : Fs) (p : List String) : Fs :=
  ⟨fs.entries.filter (fun e => !(p.isPrefixOf e.1))⟩

/-- The two `PermissionError` raises and the `FileNotFoundError` of
`FilesystemService.delete`, kept distinct as the exception messages are. -/
inductive DeleteErr
  | permissionOutside
  | notFound
  | permissionHome
  deriving DecidableEq

/-- `FilesystemService.delete`: validate, require existence, refuse the
home root, then remove recursively for a directory and singly otherwise.
The pair carries the resulting filesystem; every error branch returns the
filesystem unchanged, since the code raises before any removal. -/
def deleteOp (fs : Fs) (fuel : Nat) (home : List String) (path : String) :
    Option DeleteErr × Fs :=
  match validate_path fs fuel home path with
  | none => (some DeleteErr.permissionOutside, fs)
  | some r =>
    if (fs.find r).isNone then (some DeleteErr.notFound, fs)
    else if r = home then (some DeleteErr.permissionHome, fs)
    else if fs.isDirFollow fuel r then (none, fs.removeTree r)
    else (none, fs.removeAt r)

/-- An HTTP error response: status code plus machine-readable error
code. -/
structure HttpErr where
  status : Nat
  code : String
  deriving DecidableEq

/-- The route `DELETE /api/files`: every `PermissionError` — the
confinement violation and the home-root refusal alike — maps to 403
`PATH_FORBIDDEN`; `FileNotFoundError` maps to 404 `NOT_FOUND`. -/
def delete_route (fs : Fs) (fuel : Nat) (home : List String) (path : String) :
    Except HttpErr Unit × Fs :=
  match deleteOp fs fuel home path with
  | (some DeleteErr.permissionOutside, fs') =>
    (Except.error ⟨403, "PATH_FORBIDDEN"⟩, fs')
  | (some DeleteErr.permissionHome, fs') =>
    (Except.error ⟨403, "PATH_FORBIDDEN"⟩, fs')
  | (some DeleteErr.notFound, fs') => (Except.error ⟨404, "NOT_FOUND"⟩, fs')
  | (none, fs') => (Except.ok (), fs')

/-- Shared shape of the home-root refusal: when the candidate resolves to
an existing home root, delete raises the home-root `PermissionError` and
leaves the filesystem untouched. -/
theorem deleteOp_home (fs : Fs) (fuel : Nat) (home : List String) (path : String)
    (hv : validate_path fs fuel home path = some home)
    (hex : (fs.find home).isSome = true) :
    deleteOp fs fuel home path = (some DeleteErr.permissionHome, fs) := by
  unfold deleteOp
  rw [hv]
  have h1 : (fs.find home).isNone = false := by
    cases hfind : fs.find home
    · rw [hfind] at hex
      exact absurd hex (by simp)
    · rfl
  simp [h1]

/-- C2: the home root can never be deleted.  For every candidate that
resolves to the (existing) home root — the empty candidate included — the
delete operation fails with the forbidden error before any removal, and the
filesystem is unchanged. -/
theorem delete_home_forbidden (fs : Fs) (fuel : Nat) (home : List String)
    (path : String)
    (hv : validate_path fs fuel home path = some home)
    (hex : (fs.find home).isSome = true) :
    deleteOp fs fuel home path = (some DeleteErr.permissionHome, fs) :=
  deleteOp_home fs fuel home path hv hex

/-- Witness for C2: deleting the empty candidate (which resolves to the
home root) is refused and leaves the filesystem as it was. -/
theorem delete_home_forbidden_witness :
    deleteOp (Fs.mk [(["h"], Node.dir)]) 16 ["h"] ""
      = (some DeleteErr.permissionHome, Fs.mk [(["h"], Node.dir)]) :=
  delete_home_forbidden (Fs.mk [(["h"], Node.dir)]) 16 ["h"] "" (by decide) (by decide)

/-- C9: at the public interface, the home-root delete refusal is
indistinguishable from a confinement violation — both surface as HTTP 403
with code `PATH_FORBIDDEN`, the same response object. -/
theorem delete_route_indistinguishable (fs : Fs) (fuel : Nat) (home : List String)
    (escape toHome : String)
    (h1 : validate_path fs fuel home escape = none)
    (h2 : validate_path fs fuel home toHome = some home)
    (hex : (fs.find home).isSome = true) :
    (delete_route fs fuel home escape).1
        = Except.error (HttpErr.mk 403 "PATH_FORBIDDEN") ∧
    (delete_route fs fuel home toHome).1
        = Except.error (HttpErr.mk 403 "PATH_FORBIDDEN") ∧
    (delete_route fs fuel home escape).1 = (delete_route fs fuel home toHome).1 := by
  have ha : deleteOp fs fuel home escape = (some DeleteErr.permissionOutside, fs) := by
    unfold deleteOp
    rw [h1]
  have hb : deleteOp fs fuel home toHome = (some DeleteErr.permissionHome, fs) :=
    deleteOp_home fs fuel home toHome h2 hex
  unfold delete_route
  rw [ha, hb]
  exact ⟨rfl, rfl, rfl⟩

/-- Witness for C9: the traversal candidate `..` and the empty candidate
(which names the home root) produce the same 403 `PATH_FORBIDDEN`
response from the delete route. -/
theorem delete_route_indistinguishable_witness :
    (delete_route (Fs.mk [(["h"], Node.dir)]) 16 ["h"] "..").1
        = Except.error (HttpErr.mk 403 "PATH_FORBIDDEN") ∧
    (delete_route (Fs.mk [(["h"], Node.dir)]) 16 ["h"] "").1
        = Except.error (HttpErr.mk 403 "PATH_FORBIDDEN") ∧
    (delete_route (Fs.mk [(["h"], Node.dir)]) 16 ["h"] "..").1
        = (delete_route (Fs.mk [(["h"], Node.dir)]) 16 ["h"] "").1 :=
  delete_route_indistinguishable (Fs.mk [(["h"], Node.dir)]) 16 ["h"] ".." ""
    (by decide) (by decide) (by decide)

/-- The chain of nonempty prefixes of a path, shortest first, ending in the
path itself. -/
def allPref (p : List String) : List (List String) :=
  (List.range p.length).map (fun i => p.take (i + 1))

/-- The exceptions `mkdir` can raise in this model: the confinement
`PermissionError`, `FileExistsError` (a non-directory occupies the target)
and `NotADirectoryError` (a non-directory occupies an ancestor). -/
inductive MkdirErr
  | permission
  | fileExists
  | notADirectory
  deriving DecidableEq

/-- `resolved.mkdir(parents=True, exist_ok=True)`: an existing directory at
the path is no error; any other existing node raises `FileExistsError`
(`exist_ok` forgives only directories, and `is_dir` follows links);
otherwise every missing ancestor is created as a directory, unless a
non-directory occupies an ancestor (`NotADirectoryError`). -/
def mkdirAt (fs : Fs) (fuel : Nat) (p : List String) : Except MkdirErr Fs :=
  match fs.find p with
  | some Node.dir => Except.ok fs
  | some (Node.file _) => Except.error MkdirErr.fileExists
  | some (Node.symlink _ _) =>
    if fs.isDirFollow fuel p then Except.ok fs else Except.error MkdirErr.fileExists
  | none =>
    if (allPref p).all (fun q =>
        match fs.find q with
        | none => true
        | some Node.dir => true
        | some (Node.symlink _ _) => fs.isDirFollow fuel q
        | some (Node.file _) => false) then
      Except.ok ⟨fs.entries ++
        ((allPref p).filter (fun q => (fs.find q).isNone)).map
          (fun q => (q, Node.dir))⟩
    else Except.error MkdirErr.notADirectory

/-- `FilesystemService.mkdir`: validate the candidate, then create the
directory with parents, `exist_ok` style. -/
def mkdirOp (fs : Fs) (fuel : Nat) (home : List String) (path : String) :
    Except MkdirErr (List String) × Fs :=
  match validate_path fs fuel home path with
  | none => (Except.error MkdirErr.permission, fs)
  | some r =>
    match mkdirAt fs fuel r with
    | Except.ok fs' => (Except.ok r, fs')
    | Except.error e => (Except.error e, fs)

/-- The route `POST /api/files/mkdir` together with the application's
global exception handler: the route catches only `PermissionError` (403
`PATH_FORBIDDEN`); any other exception escapes it and the global handler
answers 500 `INTERNAL_ERROR`. -/
def make_directory (fs : Fs) (fuel : Nat) (home : List String) (path : String) :
    Except HttpErr (List String) × Fs :=
  match mkdirOp fs fuel home path with
  | (Except.ok r, fs') => (Except.ok r, fs')
  | (Except.error MkdirErr.permission, fs') =>
    (Except.error ⟨403, "PATH_FORBIDDEN"⟩, fs')
  | (Except.error MkdirErr.fileExists, fs') =>
    (Except.error ⟨500, "INTERNAL_ERROR"⟩, fs')
  | (Except.error MkdirErr.notADirectory, fs') =>
    (Except.error ⟨500, "INTERNAL_ERROR"⟩, fs')

/-- A path is among its own nonempty prefixes. -/
theorem self_mem_allPref (p : List String) (hne : p ≠ []) : p ∈ allPref p := by
  have hlp : 0 < p.length := List.length_pos.mpr hne
  unfold allPref
  refine List.mem_map.mpr ⟨p.length - 1, List.mem_range.mpr (by omega), ?_⟩
  have h1 : (p.length - 1) + 1 = p.length := by omega
  rw [h1]
  exact List.take_length ..

/-- Lookup in a concatenated entry list: when the left part misses the key
and the right part yields the directory node, so does the whole. -/
theorem find_append_right (l1 l2 : List (List String × Node)) (p : List String)
    (h1 : l1.find? (fun e => e.1 == p) = none)
    (h2 : l2.find? (fun e => e.1 == p) = some (p, Node.dir)) :
    (Fs.mk (l1 ++ l2)).find p = some Node.dir := by
  unfold Fs.find
  rw [List.find?_append, h1, Option.none_or, h2]
  rfl

/-- Keyed lookup in a list of freshly created directory entries: any
occurrence of the key returns the directory node. -/
theorem find?_keyed_dirs (l : List (List String)) (p : List String) (hp : p ∈ l) :
    (l.map (fun q => (q, Node.dir))).find? (fun e => e.1 == p)
      = some (p, Node.dir) := by
  induction l with
  | nil => cases hp
  | cons q qs ih =>
    by_cases hq : q = p
    · subst hq
      simp [List.find?]
    · have hp' : p ∈ qs := by
        rcases List.mem_cons.mp hp with h | h
        · exact absurd h.symm hq
        · exact h
      have hqb : (q == p) = false := by
        simpa using hq
      simp only [List.map_cons, List.find?, hqb]
      exact ih hp'

/-- C8 counterexample: with a regular file at `/h/f`, the candidate `f`
passes confinement resolution but make-directory does not succeed — it
raises `FileExistsError`. -/
theorem mkdir_existing_file_error :
    validate_path (Fs.mk [(["h"], Node.dir), (["h", "f"], Node.file [])]) 16 ["h"] "f"
        = some ["h", "f"] ∧
    (mkdirOp (Fs.mk [(["h"], Node.dir), (["h", "f"], Node.file [])]) 16 ["h"] "f").1
        = Except.error MkdirErr.fileExists := by
  decide

/-- C8 amended: for every candidate that passes confinement resolution and
whose resolved path has no non-directory entry at it or at any ancestor,
make-directory succeeds, creating the missing parents as directories; a
pre-existing directory at the path is not an error and the filesystem is
left unchanged. -/
theorem mkdir_success (fs : Fs) (fuel : Nat) (home : List String) (path : String)
    (p : List String)
    (hv : validate_path fs fuel home path = some p)
    (hne : p ≠ [])
    (hclean : ∀ n, n < p.length →
      fs.find (p.take (n + 1)) = none ∨ fs.find (p.take (n + 1)) = some Node.dir) :
    (mkdirOp fs fuel home path).1 = Except.ok p ∧
    ((mkdirOp fs fuel home path).2).find p = some Node.dir ∧
    (fs.find p = some Node.dir → (mkdirOp fs fuel home path).2 = fs) := by
  have hlp : 0 < p.length := List.length_pos.mpr hne
  have hp_self : fs.find p = none ∨ fs.find p = some Node.dir := by
    have h := hclean (p.length - 1) (by omega)
    have htake : p.take ((p.length - 1) + 1) = p := by
      have h1 : (p.length - 1) + 1 = p.length := by omega
      rw [h1]
      exact List.take_length ..
    rwa [htake] at h
  have hstep : mkdirOp fs fuel home path =
      (match mkdirAt fs fuel p with
       | Except.ok fs' => (Except.ok p, fs')
       | Except.error e => (Except.error e, fs)) := by
    unfold mkdirOp
    rw [hv]
  rcases hp_self with hfp | hfp
  · -- the target is missing: all ancestors pass, parents are created
    have hall : ((allPref p).all (fun q =>
        match fs.find q with
        | none => true
        | some Node.dir => true
        | some (Node.symlink _ _) => fs.isDirFollow fuel q
        | some (Node.file _) => false)) = true := by
      rw [List.all_eq_true]
      intro q hq
      obtain ⟨i, hi, hqe⟩ := by
        simpa [allPref, List.mem_map, List.mem_range] using hq
      subst hqe
      rcases hclean i hi with h | h <;> rw [h]
    have hmk : mkdirAt fs fuel p = Except.ok (Fs.mk (fs.entries ++
        ((allPref p).filter (fun q => (fs.find q).isNone)).map
          (fun q => (q, Node.dir)))) := by
      unfold mkdirAt
      rw [hfp]
      rw [if_pos hall]
    rw [hstep, hmk]
    have hnone : fs.entries.find? (fun e => e.1 == p) = none := by
      have hfp' := hfp
      unfold Fs.find at hfp'
      exact Option.map_eq_none'.mp hfp'
    have hmem : p ∈ (allPref p).filter (fun q => (fs.find q).isNone) := by
      rw [List.mem_filter]
      exact ⟨self_mem_allPref p hne, by rw [hfp]; rfl⟩
    have hfind : (Fs.mk (fs.entries ++
        ((allPref p).filter (fun q => (fs.find q).isNone)).map
          (fun q => (q, Node.dir)))).find p = some Node.dir :=
      find_append_right _ _ p hnone (find?_keyed_dirs _ p hmem)
    refine ⟨rfl, hfind, ?_⟩
    intro hcontra
    rw [hcontra] at hfp
    cases hfp
  · -- a directory already exists: no-op success
    have hmk : mkdirAt fs fuel p = Except.ok fs := by
      unfold mkdirAt
      rw [hfp]
    rw [hstep, hmk]
    exact ⟨rfl, hfp, fun _ => rfl⟩

/-- Witness for the amended C8: creating `a/b` under `/h` succeeds,
creating both missing directories, and the no-change clause holds
vacuously. -/
theorem mkdir_success_witness :
    (mkdirOp (Fs.mk [(["h"], Node.dir)]) 16 ["h"] "a/b").1 = Except.ok ["h", "a", "b"] ∧
    ((mkdirOp (Fs.mk [(["h"], Node.dir)]) 16 ["h"] "a/b").2).find ["h", "a", "b"]
        = some Node.dir ∧
    ((Fs.mk [(["h"], Node.dir)]).find ["h", "a", "b"] = some Node.dir →
      (mkdirOp (Fs.mk [(["h"], Node.dir)]) 16 ["h"] "a/b").2 = Fs.mk [(["h"], Node.dir)]) :=
  mkdir_success (Fs.mk [(["h"], Node.dir)]) 16 ["h"] "a/b" ["h", "a", "b"]
    (by decide) (by decide) (by decide)

/-- C10: when a regular file occupies the resolved path, make-directory
raises `FileExistsError`, which the route does not catch; the global
exception handler surfaces it as HTTP 500 `INTERNAL_ERROR`, and the
filesystem is unchanged. -/
theorem mkdir_on_file_internal_error (fs : Fs) (fuel : Nat) (home : List String)
    (path : String) (p : List String) (content : List Nat)
    (hv : validate_path fs fuel home path = some p)
    (hf : fs.find p = some (Node.file content)) :
    (make_directory fs fuel home path).1
        = Except.error (HttpErr.mk 500 "INTERNAL_ERROR") ∧
    (make_directory fs fuel home path).2 = fs := by
  have hstep : mkdirOp fs fuel home path =
      (match mkdirAt fs fuel p with
       | Except.ok fs' => (Except.ok p, fs')
       | Except.error e => (Except.error e, fs)) := by
    unfold mkdirOp
    rw [hv]
  have hmk : mkdirAt fs fuel p = Except.error MkdirErr.fileExists := by
    unfold mkdirAt
    rw [hf]
  have hop : mkdirOp fs fuel home path = (Except.error MkdirErr.fileExists, fs) := by
    rw [hstep, hmk]
  unfold make_directory
  rw [hop]
  exact ⟨rfl, rfl⟩

/-- Witness for C10: asking mkdir for `f` where `/h/f` is a regular file
yields the 500 `INTERNAL_ERROR` response and changes nothing. -/
theorem mkdir_on_file_internal_error_witness :
    (make_directory (Fs.mk [(["h"], Node.dir), (["h", "f"], Node.file [])])
        16 ["h"] "f").1 = Except.error (HttpErr.mk 500 "INTERNAL_ERROR") ∧
    (make_directory (Fs.mk [(["h"], Node.dir), (["h", "f"], Node.file [])])
        16 ["h"] "f").2 = Fs.mk [(["h"], Node.dir), (["h", "f"], Node.file [])] :=
  mkdir_on_file_internal_error (Fs.mk [(["h"], Node.dir), (["h", "f"], Node.file [])])
    16 ["h"] "f" ["h", "f"] [] (by decide) (by decide)

end Filebrowser
